import Mathlib

/-!
Shallow embedding of tmux-urlview: the URL extraction function `extractURLs`
and the orchestration function `run` of `main.go`, together with models of the
pieces of Go's standard library the program relies on: `regexp` matching of
the pattern `https?://[^\s]+` (`scanFrom`/`findMatchesL`), `strings.TrimRight`
(`trimRightL`), `strings.Join` (`goJoin`) and the success/failure behaviour of
`net/url.Parse` (`goURLParseOk`).
-/

namespace TmuxUrlView

/-- Whitespace class of Go's `regexp` escape `\s`, namely `[\t\n\f\r ]`. -/
def goSpace (c : Char) : Bool :=
  c == ' ' || c == '\t' || c == '\n' || c == Char.ofNat 12 || c == '\r'

/-- Characters of the literal scheme prefix `https://`. -/
def schemeHttps : List Char := ['h', 't', 't', 'p', 's', ':', '/', '/']

/-- Characters of the literal scheme prefix `http://`. -/
def schemeHttp : List Char := ['h', 't', 't', 'p', ':', '/', '/']

/-- One pass of Go `regexp.FindAllString` for the pattern `https?://[^\s]+`:
scan left to right; at a position where a scheme prefix is followed by at
least one non-whitespace character, emit the prefix together with the maximal
non-whitespace run after it and continue behind the match; otherwise advance
by one character. The fuel argument is always instantiated with the length of
the list and only serves termination. -/
def scanFrom : Nat → List Char → List (List Char)
  | _, [] => []
  | 0, _ :: _ => []
  | fuel + 1, c :: rest =>
    if schemeHttps.isPrefixOf (c :: rest) then
      if (((c :: rest).drop 8).takeWhile (fun ch => !goSpace ch)).isEmpty then
        scanFrom fuel rest
      else
        (schemeHttps ++ ((c :: rest).drop 8).takeWhile (fun ch => !goSpace ch)) ::
          scanFrom fuel (((c :: rest).drop 8).dropWhile (fun ch => !goSpace ch))
    else if schemeHttp.isPrefixOf (c :: rest) then
      if (((c :: rest).drop 7).takeWhile (fun ch => !goSpace ch)).isEmpty then
        scanFrom fuel rest
      else
        (schemeHttp ++ ((c :: rest).drop 7).takeWhile (fun ch => !goSpace ch)) ::
          scanFrom fuel (((c :: rest).drop 7).dropWhile (fun ch => !goSpace ch))
    else scanFrom fuel rest

/-- Model of `urlRegex.FindAllString(text, -1)` for `https?://[^\s]+`. -/
def findMatchesL (l : List Char) : List (List Char) := scanFrom l.length l

/-- Model of Go `strings.TrimRight`: remove the maximal trailing run of
characters that belong to `cut`. -/
def trimRightL (l cut : List Char) : List Char :=
  (l.reverse.dropWhile (fun c => cut.contains c)).reverse

/-- The cutset `".,;!?)(]}"` that `extractURLs` passes to `strings.TrimRight`
(the last character is the closing brace, written numerically). -/
def stopSet : List Char := ['.', ',', ';', '!', '?', ')', '(', ']', Char.ofNat 125]

/-- The cleaning step of `extractURLs`: `strings.TrimRight(match, ".,;!?)(]}")`. -/
def cleanMatch (m : List Char) : List Char := trimRightL m stopSet

/-! Model of the success/failure behaviour of Go `net/url.Parse`, translated
from the Go standard library (`src/net/url/url.go`). Only whether parsing
succeeds is modelled, since `extractURLs` discards the parsed value. -/

/-- Go `stringContainsCTLByte`: a byte below 0x20 or equal to 0x7f.
Characters below 0x20 and 0x7f are single bytes in UTF-8. -/
def isCtlByte (c : Char) : Bool := c.toNat < 32 || c.toNat == 127

/-- Go `ishex`. -/
def isHexDigit (c : Char) : Bool :=
  ('0' ≤ c && c ≤ '9') || ('a' ≤ c && c ≤ 'f') || ('A' ≤ c && c ≤ 'F')

/-- Go `unhex`. -/
def unhex (c : Char) : Nat :=
  if '0' ≤ c && c ≤ '9' then c.toNat - '0'.toNat
  else if 'a' ≤ c && c ≤ 'f' then c.toNat - 'a'.toNat + 10
  else if 'A' ≤ c && c ≤ 'F' then c.toNat - 'A'.toNat + 10
  else 0

def isAlpha (c : Char) : Bool := ('a' ≤ c && c ≤ 'z') || ('A' ≤ c && c ≤ 'Z')

def isDigit (c : Char) : Bool := '0' ≤ c && c ≤ '9'

def isAlphaNum (c : Char) : Bool := isAlpha c || isDigit c

/-- Extra characters `shouldEscape` admits unescaped in a host component. -/
def hostExtra : List Char :=
  ['!', '$', '&', Char.ofNat 39, '(', ')', '*', '+', ',', ';', '=', ':',
   '[', ']', '<', '>', Char.ofNat 34]

/-- Unreserved marks of RFC 3986 admitted by `shouldEscape` in every mode. -/
def unreservedMark : List Char := ['-', '_', '.', '~']

/-- Go `shouldEscape(c, encodeHost)` for a byte `c < 0x80`. -/
def shouldEscapeHost (c : Char) : Bool :=
  !(isAlphaNum c || hostExtra.contains c || unreservedMark.contains c)

/-- The `encoding` modes of `net/url` that `Parse` feeds to `unescape`. -/
inductive EscMode
  | host
  | zone
  | path
  | fragment
  | userPassword

/-- Host-mode restriction on a percent escape `%ab`: only `%25` and escapes of
bytes at least 0x80 are allowed (`unhex(s[i+1]) < 8` rejects the rest). -/
def hostEscBad (mode : EscMode) (a b : Char) : Bool :=
  match mode with
  | .host => unhex a < 8 && !(a == '2' && b == '5')
  | _ => false

/-- Zone-mode restriction on a percent escape `%ab`. -/
def zoneEscBad (mode : EscMode) (a b : Char) : Bool :=
  match mode with
  | .zone =>
    !(a == '2' && b == '5') && unhex a * 16 + unhex b != 32 &&
      (if unhex a * 16 + unhex b < 128 then
        shouldEscapeHost (Char.ofNat (unhex a * 16 + unhex b))
      else true)
  | _ => false

/-- Host and zone modes reject unescaped bytes below 0x80 that `shouldEscape`
would escape (`InvalidHostError`). -/
def hostModeBadChar (mode : EscMode) (c : Char) : Bool :=
  match mode with
  | .host | .zone => c.toNat < 128 && shouldEscapeHost c
  | _ => false

/-- Whether Go `unescape(s, mode)` succeeds (the decoded value is unused). -/
def unescapeOk : EscMode → List Char → Bool
  | _, [] => true
  | mode, '%' :: a :: b :: rest =>
    if !(isHexDigit a && isHexDigit b) then false
    else if hostEscBad mode a b then false
    else if zoneEscBad mode a b then false
    else unescapeOk mode rest
  | _, '%' :: _ => false
  | mode, '+' :: rest => unescapeOk mode rest
  | mode, c :: rest => if hostModeBadChar mode c then false else unescapeOk mode rest

/-- Go `validOptionalPort`. -/
def validOptionalPort : List Char → Bool
  | [] => true
  | c :: rest => c == ':' && rest.all isDigit

/-- Index of the last occurrence of `c` in `l` (Go `strings.LastIndex` for a
one-byte needle). -/
def lastIdxOf (c : Char) (l : List Char) : Option Nat :=
  match l.reverse.findIdx? (fun x => x == c) with
  | none => none
  | some j => some (l.length - 1 - j)

/-- Index of the first occurrence of `pat` in `l` (Go `strings.Index`). -/
def idxOfSeq (pat : List Char) : List Char → Option Nat
  | [] => if pat.isEmpty then some 0 else none
  | c :: rest =>
    if pat.isPrefixOf (c :: rest) then some 0
    else (idxOfSeq pat rest).map (· + 1)

/-- Whether Go `parseHost` succeeds. -/
def parseHostOk (host : List Char) : Bool :=
  if host.head? == some '[' then
    match lastIdxOf ']' host with
    | none => false
    | some i =>
      if !validOptionalPort (host.drop (i + 1)) then false
      else
        match idxOfSeq ['%', '2', '5'] (host.take i) with
        | some z =>
          unescapeOk .host ((host.take i).take z) &&
          unescapeOk .zone ((host.take i).drop z) &&
          unescapeOk .host (host.drop i)
        | none => unescapeOk .host host
  else
    (match lastIdxOf ':' host with
     | some i => validOptionalPort (host.drop i)
     | none => true) && unescapeOk .host host

/-- Go `validUserinfo`; non-ASCII runes are rejected. -/
def validUserinfo (l : List Char) : Bool :=
  l.all (fun c => isAlphaNum c ||
    ['-', '.', '_', ':', '~', '!', '$', '&', Char.ofNat 39,
     '(', ')', '*', '+', ',', ';', '=', '%', '@'].contains c)

/-- Whether Go `parseAuthority` succeeds: the host is everything after the
last `@`, the userinfo everything before it. -/
def parseAuthorityOk (authority : List Char) : Bool :=
  match lastIdxOf '@' authority with
  | none => parseHostOk authority
  | some i =>
    parseHostOk (authority.drop (i + 1)) &&
    validUserinfo (authority.take i) &&
    (if (authority.take i).contains ':' then
      unescapeOk .userPassword ((authority.take i).takeWhile (fun c => !(c == ':'))) &&
      unescapeOk .userPassword (((authority.take i).dropWhile (fun c => !(c == ':'))).drop 1)
    else unescapeOk .userPassword (authority.take i))

/-- Result of Go `getScheme`. -/
inductive SchemeRes
  | err
  | noScheme
  | found (scheme rest : List Char)

/-- Go `getScheme`, scanning for `alpha (alphanum|+|-|.)* :`. -/
def getSchemeAux (acc : List Char) : List Char → SchemeRes
  | [] => .noScheme
  | c :: rest =>
    if isAlpha c then getSchemeAux (acc ++ [c]) rest
    else if isDigit c || c == '+' || c == '-' || c == '.' then
      if acc.isEmpty then .noScheme else getSchemeAux (acc ++ [c]) rest
    else if c == ':' then
      if acc.isEmpty then .err else .found acc rest
    else .noScheme

def getScheme (l : List Char) : SchemeRes := getSchemeAux [] l

/-- Shared tail of Go `parse`: authority splitting and `setPath`. `rest1` is
the part after the scheme with the query already removed. -/
def parsePathAuthority (scheme rest1 : List Char) : Bool :=
  if (!scheme.isEmpty || !(['/', '/', '/'].isPrefixOf rest1)) &&
      ['/', '/'].isPrefixOf rest1 then
    parseAuthorityOk ((rest1.drop 2).takeWhile (fun c => !(c == '/'))) &&
    unescapeOk .path ((rest1.drop 2).dropWhile (fun c => !(c == '/')))
  else unescapeOk .path rest1

/-- Go `parse` after `getScheme`: query stripping, the opaque case and the
first-path-segment colon check, then `parsePathAuthority`. The raw query is
stored without validation. -/
def parseAfterScheme (scheme rest0 : List Char) : Bool :=
  let rest1 :=
    if rest0.getLast? == some '?' && !(rest0.dropLast.contains '?') then
      rest0.dropLast
    else rest0.takeWhile (fun c => !(c == '?'))
  if !(rest1.head? == some '/') then
    if !scheme.isEmpty then true
    else if (rest1.takeWhile (fun c => !(c == '/'))).contains ':' then false
    else parsePathAuthority scheme rest1
  else parsePathAuthority scheme rest1

/-- Whether Go `parse(raw, false)` succeeds on the part before the fragment. -/
def parseOkInner (raw : List Char) : Bool :=
  if raw.any isCtlByte then false
  else if raw == ['*'] then true
  else
    match getScheme raw with
    | .err => false
    | .noScheme => parseAfterScheme [] raw
    | .found s rest => parseAfterScheme s rest

/-- Whether Go `url.Parse` succeeds on a list of characters: split the
fragment at the first `#`, parse the part before it, then validate the
fragment escapes (`setFragment`). -/
def goURLParseOkL (l : List Char) : Bool :=
  if !parseOkInner (l.takeWhile (fun c => !(c == '#'))) then false
  else if ((l.dropWhile (fun c => !(c == '#'))).drop 1).isEmpty then true
  else unescapeOk .fragment ((l.dropWhile (fun c => !(c == '#'))).drop 1)

/-- Whether Go `url.Parse` succeeds on a string. -/
def goURLParseOk (s : String) : Bool := goURLParseOkL s.toList

/-- The loop of `extractURLs`: clean each match, keep it when `url.Parse`
succeeds and it has not been seen, recording seen URLs (the `seen` map). -/
def extractLoop : List (List Char) → List (List Char) → List (List Char)
  | [], _ => []
  | m :: ms, seen =>
    if goURLParseOkL (cleanMatch m) then
      if seen.contains (cleanMatch m) then extractLoop ms seen
      else cleanMatch m :: extractLoop ms (cleanMatch m :: seen)
    else extractLoop ms seen

/-- Go `extractURLs`: find all regex matches, right-trim each with the
stop-set, keep those `url.Parse` accepts, dropping duplicates. -/
def extractURLs (text : String) : List String :=
  (extractLoop (findMatchesL text.toList) []).map (fun l => String.mk l)

/-- Model of Go `strings.Join`. -/
def goJoin (sep : String) : List String → String
  | [] => ""
  | [s] => s
  | s :: rest => s ++ sep ++ goJoin sep rest

/-- Character-list version of `strings.Join(urls, "\n")`. -/
def listJoinNL : List (List Char) → List Char
  | [] => []
  | [x] => x
  | x :: rest => x ++ '\n' :: listJoinNL rest

/-! Model of `run` and its injected dependencies. Each call to a dependency
is recorded in an effect trace so that absence of calls is expressible. -/

/-- A call to one of the injected interfaces. -/
inductive EffectCall
  | selectCall (urls : List String)
  | openCall (url : String)
deriving DecidableEq

/-- Recognizer for opener calls in the effect trace. -/
def isOpenCall : EffectCall → Bool
  | .openCall _ => true
  | _ => false

/-- The dependencies injected into `run`: `InputProvider.GetInput`,
`URLSelector.SelectURL` and `URLOpener.OpenURL`. A Go `(value, error)` pair
is modelled as `Except` (error message as the error) and an error-only result
as `Option` of the message. -/
structure RunDeps where
  getInput : Except String String
  selectURL : List String → Except String String
  openURL : String → Option String

/-- Go `run`: returns the error (`none` for nil) and the trace of interface
calls made. -/
def run (d : RunDeps) : Option String × List EffectCall :=
  match d.getInput with
  | .error e => (some ("error reading input: " ++ e), [])
  | .ok input =>
    if (extractURLs input).isEmpty then (none, [])
    else
      match d.selectURL (extractURLs input) with
      | .error e => (some ("error selecting URL: " ++ e), [.selectCall (extractURLs input)])
      | .ok selectedURL =>
        if selectedURL ≠ "" then
          match d.openURL selectedURL with
          | some e =>
            (some ("error opening URL: " ++ e),
             [.selectCall (extractURLs input), .openCall selectedURL])
          | none => (none, [.selectCall (extractURLs input), .openCall selectedURL])
        else (none, [.selectCall (extractURLs input)])

/-! Lemmas about `trimRightL`. -/

/-- The trailing run that `trimRightL` removes. -/
def trimmedTail (l cut : List Char) : List Char :=
  (l.reverse.takeWhile (fun c => cut.contains c)).reverse

lemma trimRightL_append_trimmedTail (l cut : List Char) :
    trimRightL l cut ++ trimmedTail l cut = l := by
  unfold trimRightL trimmedTail
  rw [← List.reverse_append, List.takeWhile_append_dropWhile, List.reverse_reverse]

lemma mem_trimmedTail {l cut : List Char} {c : Char} (h : c ∈ trimmedTail l cut) :
    cut.contains c = true := by
  have h2 : c ∈ l.reverse.takeWhile (fun c => cut.contains c) := by
    simpa [trimmedTail] using h
  simpa using List.mem_takeWhile_imp h2

lemma getLast?_trimRightL {l cut : List Char} {c : Char}
    (h : (trimRightL l cut).getLast? = some c) : cut.contains c = false := by
  have h2 := List.head?_dropWhile_not (fun c => cut.contains c) l.reverse
  rw [trimRightL, List.getLast?_reverse] at h
  rw [h] at h2
  exact h2

lemma trimRightL_idem (l cut : List Char) :
    trimRightL (trimRightL l cut) cut = trimRightL l cut := by
  unfold trimRightL
  rw [List.reverse_reverse]
  cases h : l.reverse.dropWhile (fun c => cut.contains c) with
  | nil => simp
  | cons c t =>
    have h2 := List.head?_dropWhile_not (fun c => cut.contains c) l.reverse
    rw [h] at h2
    simp only [List.head?_cons] at h2
    rw [List.dropWhile_cons_of_neg (by simpa using h2)]

lemma trimRightL_append_keep {a b cut : List Char}
    (h : ∀ c, a.getLast? = some c → cut.contains c = false) :
    trimRightL (a ++ b) cut = a ++ trimRightL b cut := by
  have hself : a.reverse.dropWhile (fun c => cut.contains c) = a.reverse := by
    cases ha : a.reverse with
    | nil => simp
    | cons c t =>
      have hc : a.getLast? = some c := by
        rw [← List.head?_reverse, ha, List.head?_cons]
      rw [List.dropWhile_cons_of_neg (by simpa using h c hc)]
  unfold trimRightL
  rw [List.reverse_append, List.dropWhile_append]
  split
  · rename_i hemp
    have hb : b.reverse.dropWhile (fun c => cut.contains c) = [] :=
      List.isEmpty_iff.mp hemp
    rw [hb, hself]
    simp
  · rw [List.reverse_append, List.reverse_reverse]

/-! Lemmas about the regex scanner. -/

lemma scanFrom_congr : ∀ (f₁ f₂ : Nat) (l : List Char), l.length ≤ f₁ → l.length ≤ f₂ →
    scanFrom f₁ l = scanFrom f₂ l := by
  intro f₁
  induction f₁ with
  | zero =>
    intro f₂ l h1 _
    have : l = [] := by
      cases l with
      | nil => rfl
      | cons c t => simp at h1
    subst this
    simp [scanFrom]
  | succ g ih =>
    intro f₂ l h1 h2
    cases l with
    | nil => simp [scanFrom]
    | cons c rest =>
      cases f₂ with
      | zero => simp at h2
      | succ g₂ =>
        have hr : rest.length ≤ g := by simp at h1; omega
        have hr₂ : rest.length ≤ g₂ := by simp at h2; omega
        have hd8 : (((c :: rest).drop 8).dropWhile (fun ch => !goSpace ch)).length ≤
            rest.length := by
          have := (List.dropWhile_sublist (l := (c :: rest).drop 8)
            (fun ch => !goSpace ch)).length_le
          simp [List.length_drop] at this ⊢
          omega
        have hd7 : (((c :: rest).drop 7).dropWhile (fun ch => !goSpace ch)).length ≤
            rest.length := by
          have := (List.dropWhile_sublist (l := (c :: rest).drop 7)
            (fun ch => !goSpace ch)).length_le
          simp [List.length_drop] at this ⊢
          omega
        simp only [scanFrom]
        split_ifs
        · exact ih g₂ rest hr hr₂
        · exact congrArg _ (ih g₂ _ (le_trans hd8 hr) (le_trans hd8 hr₂))
        · exact ih g₂ rest hr hr₂
        · exact congrArg _ (ih g₂ _ (le_trans hd7 hr) (le_trans hd7 hr₂))
        · exact ih g₂ rest hr hr₂

lemma scanFrom_eq_findMatchesL {fuel : Nat} {l : List Char} (h : l.length ≤ fuel) :
    scanFrom fuel l = findMatchesL l :=
  scanFrom_congr fuel l.length l h (le_refl _)

lemma scanFrom_shape : ∀ (fuel : Nat) (l m : List Char), m ∈ scanFrom fuel l →
    ∃ w, (m = schemeHttps ++ w ∨ m = schemeHttp ++ w) ∧ w ≠ [] ∧
      ∀ c ∈ w, goSpace c = false := by
  intro fuel
  induction fuel with
  | zero =>
    intro l m hm
    cases l <;> simp [scanFrom] at hm
  | succ g ih =>
    intro l m hm
    cases l with
    | nil => simp [scanFrom] at hm
    | cons c rest =>
      simp only [scanFrom] at hm
      split_ifs at hm with h1 h2 h3 h4
      · exact ih rest m hm
      · rcases List.mem_cons.mp hm with hh | ht
        · refine ⟨((c :: rest).drop 8).takeWhile (fun ch => !goSpace ch),
            Or.inl hh, ?_, ?_⟩
          · intro hnil
            rw [hnil] at h2
            simp at h2
          · intro x hx
            have := List.mem_takeWhile_imp hx
            simpa using this
        · exact ih _ m ht
      · exact ih rest m hm
      · rcases List.mem_cons.mp hm with hh | ht
        · refine ⟨((c :: rest).drop 7).takeWhile (fun ch => !goSpace ch),
            Or.inr hh, ?_, ?_⟩
          · intro hnil
            rw [hnil] at h4
            simp at h4
          · intro x hx
            have := List.mem_takeWhile_imp hx
            simpa using this
        · exact ih _ m ht
      · exact ih rest m hm

lemma findMatchesL_shape {l m : List Char} (hm : m ∈ findMatchesL l) :
    ∃ w, (m = schemeHttps ++ w ∨ m = schemeHttp ++ w) ∧ w ≠ [] ∧
      ∀ c ∈ w, goSpace c = false :=
  scanFrom_shape l.length l m hm

/-! First-occurrence deduplication: specification-side description of the
`seen` map of `extractURLs`. -/

/-- Keep the first occurrence of every element, in order of first occurrence
(the fuel is always the length of the list and only serves termination). -/
def firstOccurAux : Nat → List (List Char) → List (List Char)
  | _, [] => []
  | 0, _ :: _ => []
  | fuel + 1, x :: xs => x :: firstOccurAux fuel (xs.filter (fun y => !(y == x)))

/-- The sequence of first occurrences of the elements of `l`, in order. -/
def firstOccur (l : List (List Char)) : List (List Char) := firstOccurAux l.length l

lemma firstOccurAux_congr : ∀ (f₁ f₂ : Nat) (l : List (List Char)),
    l.length ≤ f₁ → l.length ≤ f₂ → firstOccurAux f₁ l = firstOccurAux f₂ l := by
  intro f₁
  induction f₁ with
  | zero =>
    intro f₂ l h1 _
    have : l = [] := by
      cases l with
      | nil => rfl
      | cons x xs => simp at h1
    subst this
    simp [firstOccurAux]
  | succ g ih =>
    intro f₂ l h1 h2
    cases l with
    | nil => simp [firstOccurAux]
    | cons x xs =>
      cases f₂ with
      | zero => simp at h2
      | succ g₂ =>
        simp only [firstOccurAux, List.cons.injEq, true_and]
        have hf := List.length_filter_le (fun y => !(y == x)) xs
        simp only [List.length_cons] at h1 h2
        exact ih g₂ _ (by omega) (by omega)

lemma firstOccur_cons (x : List Char) (xs : List (List Char)) :
    firstOccur (x :: xs) = x :: firstOccur (xs.filter (fun y => !(y == x))) := by
  unfold firstOccur
  simp only [List.length_cons, firstOccurAux, List.cons.injEq, true_and]
  exact firstOccurAux_congr _ _ _ (List.length_filter_le _ _) (le_refl _)

lemma mem_firstOccurAux : ∀ (f : Nat) (l : List (List Char)) (y : List Char),
    y ∈ firstOccurAux f l → y ∈ l := by
  intro f
  induction f with
  | zero =>
    intro l y hy
    cases l <;> simp [firstOccurAux] at hy
  | succ g ih =>
    intro l y hy
    cases l with
    | nil => simp [firstOccurAux] at hy
    | cons x xs =>
      simp only [firstOccurAux, List.mem_cons] at hy
      rcases hy with rfl | hy
      · exact List.mem_cons_self _ _
      · exact List.mem_cons_of_mem _ (List.mem_of_mem_filter (ih _ y hy))

lemma firstOccurAux_nodup : ∀ (f : Nat) (l : List (List Char)),
    (firstOccurAux f l).Nodup := by
  intro f
  induction f with
  | zero =>
    intro l
    cases l <;> simp [firstOccurAux]
  | succ g ih =>
    intro l
    cases l with
    | nil => simp [firstOccurAux]
    | cons x xs =>
      simp only [firstOccurAux]
      refine List.nodup_cons.mpr ⟨?_, ih _⟩
      intro hx
      have := List.mem_filter.mp (mem_firstOccurAux _ _ _ hx)
      simp at this

lemma firstOccur_nodup (l : List (List Char)) : (firstOccur l).Nodup :=
  firstOccurAux_nodup _ _

lemma firstOccur_of_nodup : ∀ (l : List (List Char)), l.Nodup → firstOccur l = l := by
  intro l
  induction l with
  | nil => intro _; rfl
  | cons x xs ih =>
    intro hn
    rw [firstOccur_cons]
    have hx : x ∉ xs := (List.nodup_cons.mp hn).1
    have hfilter : xs.filter (fun y => !(y == x)) = xs := by
      apply List.filter_eq_self.mpr
      intro a ha
      have hax : a ≠ x := fun hh => hx (hh ▸ ha)
      simp [hax]
    rw [hfilter, ih (List.nodup_cons.mp hn).2]

/-! Characterisation of the `extractURLs` loop. -/

lemma extractLoop_eq_firstOccur : ∀ (ms seen : List (List Char)),
    extractLoop ms seen =
      firstOccur (((ms.map cleanMatch).filter goURLParseOkL).filter
        (fun u => !(seen.contains u))) := by
  intro ms
  induction ms with
  | nil => intro seen; simp [extractLoop, firstOccur, firstOccurAux]
  | cons m ms ih =>
    intro seen
    by_cases hp : goURLParseOkL (cleanMatch m)
    · by_cases hs : seen.contains (cleanMatch m)
      · have hs2 : cleanMatch m ∈ seen := by simpa using hs
        have l1 : extractLoop (m :: ms) seen = extractLoop ms seen := by
          simp [extractLoop, hp, hs2]
        have r1 : (((m :: ms).map cleanMatch).filter goURLParseOkL).filter
              (fun u => !(seen.contains u)) =
            ((ms.map cleanMatch).filter goURLParseOkL).filter
              (fun u => !(seen.contains u)) := by
          simp [List.filter_cons, hp, hs2]
        rw [l1, r1, ih seen]
      · have hs2 : cleanMatch m ∉ seen := by simpa using hs
        have l1 : extractLoop (m :: ms) seen =
            cleanMatch m :: extractLoop ms (cleanMatch m :: seen) := by
          simp [extractLoop, hp, hs2]
        have r1 : (((m :: ms).map cleanMatch).filter goURLParseOkL).filter
              (fun u => !(seen.contains u)) =
            cleanMatch m :: ((ms.map cleanMatch).filter goURLParseOkL).filter
              (fun u => !(seen.contains u)) := by
          simp [List.filter_cons, hp, hs2]
        have hfe : ((ms.map cleanMatch).filter goURLParseOkL).filter
              (fun u => !((cleanMatch m :: seen).contains u)) =
            (((ms.map cleanMatch).filter goURLParseOkL).filter
              (fun u => !(seen.contains u))).filter
                (fun y => !(y == cleanMatch m)) := by
          simp only [List.filter_filter]
          apply List.filter_congr
          intro a _
          simp only [List.contains_cons, Bool.not_or, Bool.and_assoc]
        rw [l1, r1, firstOccur_cons, ih (cleanMatch m :: seen), hfe]
    · have l1 : extractLoop (m :: ms) seen = extractLoop ms seen := by
        simp [extractLoop, hp]
      have r1 : (((m :: ms).map cleanMatch).filter goURLParseOkL).filter
            (fun u => !(seen.contains u)) =
          ((ms.map cleanMatch).filter goURLParseOkL).filter
            (fun u => !(seen.contains u)) := by
        simp [List.filter_cons, hp]
      rw [l1, r1, ih seen]

/-- The cleaned candidates of a text that pass the `url.Parse` check, in
match order, duplicates included. -/
def validCandidates (l : List Char) : List (List Char) :=
  ((findMatchesL l).map cleanMatch).filter goURLParseOkL

lemma extractURLs_eq (text : String) :
    extractURLs text =
      (firstOccur (validCandidates text.toList)).map (fun l => String.mk l) := by
  unfold extractURLs validCandidates
  rw [extractLoop_eq_firstOccur]
  congr 2
  apply List.filter_eq_self.mpr
  intro a _
  simp

lemma string_mk_injective : Function.Injective (fun l => String.mk l) := by
  intro a b h
  exact congrArg String.data h

lemma extractURLs_nodup (text : String) : (extractURLs text).Nodup := by
  rw [extractURLs_eq]
  exact (firstOccur_nodup _).map string_mk_injective

lemma extractLoop_mem : ∀ (ms seen : List (List Char)) (u : List Char),
    u ∈ extractLoop ms seen →
      goURLParseOkL u = true ∧ ∃ m ∈ ms, u = cleanMatch m := by
  intro ms
  induction ms with
  | nil => intro seen u hu; simp [extractLoop] at hu
  | cons m ms ih =>
    intro seen u hu
    simp only [extractLoop] at hu
    split_ifs at hu with hp hs
    · obtain ⟨h1, mm, hmm, he⟩ := ih seen u hu
      exact ⟨h1, mm, List.mem_cons_of_mem _ hmm, he⟩
    · rcases List.mem_cons.mp hu with rfl | hu2
      · exact ⟨hp, m, List.mem_cons_self _ _, rfl⟩
      · obtain ⟨h1, mm, hmm, he⟩ := ih _ u hu2
        exact ⟨h1, mm, List.mem_cons_of_mem _ hmm, he⟩
    · obtain ⟨h1, mm, hmm, he⟩ := ih seen u hu
      exact ⟨h1, mm, List.mem_cons_of_mem _ hmm, he⟩

/-- Every string returned by `extractURLs` is a cleaned match that passed the
`url.Parse` check. -/
lemma extractURLs_mem {text : String} {u : String} (hu : u ∈ extractURLs text) :
    goURLParseOkL u.toList = true ∧
      ∃ m ∈ findMatchesL text.toList, u.toList = cleanMatch m := by
  unfold extractURLs at hu
  rcases List.mem_map.mp hu with ⟨l, hl, rfl⟩
  simpa using extractLoop_mem _ _ l hl

/-! Rescanning a newline-join of already-extracted URLs (for idempotence). -/

lemma isPrefixOf_append_self : ∀ (a b : List Char), a.isPrefixOf (a ++ b) = true := by
  intro a b
  simp

lemma https_not_pre_http (x : List Char) :
    schemeHttps.isPrefixOf (schemeHttp ++ x) = false := by
  have h : ('s' == ':') = false := by decide
  simp [schemeHttps, schemeHttp, List.isPrefixOf_cons₂, h]

lemma https_not_pre_newline (t : List Char) :
    schemeHttps.isPrefixOf ('\n' :: t) = false := by
  have h : ('h' == '\n') = false := by decide
  simp [schemeHttps, List.isPrefixOf_cons₂, h]

lemma http_not_pre_newline (t : List Char) :
    schemeHttp.isPrefixOf ('\n' :: t) = false := by
  have h : ('h' == '\n') = false := by decide
  simp [schemeHttp, List.isPrefixOf_cons₂, h]

lemma takeWhile_eq_self_of_all {p : Char → Bool} {w : List Char}
    (h : ∀ c ∈ w, p c = true) : w.takeWhile p = w := by
  induction w with
  | nil => rfl
  | cons x xs ih =>
    rw [List.takeWhile_cons_of_pos (h x (List.mem_cons_self _ _)),
      ih (fun c hc => h c (List.mem_cons_of_mem _ hc))]

lemma dropWhile_eq_nil_of_all {p : Char → Bool} {w : List Char}
    (h : ∀ c ∈ w, p c = true) : w.dropWhile p = [] := by
  induction w with
  | nil => rfl
  | cons x xs ih =>
    rw [List.dropWhile_cons_of_pos (h x (List.mem_cons_self _ _)),
      ih (fun c hc => h c (List.mem_cons_of_mem _ hc))]

lemma scanFrom_https_step (fuel : Nat) (x : List Char)
    (hne : x.takeWhile (fun ch => !goSpace ch) ≠ []) :
    scanFrom (fuel + 1) (schemeHttps ++ x) =
      (schemeHttps ++ x.takeWhile (fun ch => !goSpace ch)) ::
        scanFrom fuel (x.dropWhile (fun ch => !goSpace ch)) := by
  have h1 : schemeHttps.isPrefixOf
      ('h' :: 't' :: 't' :: 'p' :: 's' :: ':' :: '/' :: '/' :: x) = true :=
    isPrefixOf_append_self schemeHttps x
  have hd : ('h' :: 't' :: 't' :: 'p' :: 's' :: ':' :: '/' :: '/' :: x).drop 8 = x := rfl
  show scanFrom (fuel + 1)
      ('h' :: 't' :: 't' :: 'p' :: 's' :: ':' :: '/' :: '/' :: x) =
    (schemeHttps ++ x.takeWhile (fun ch => !goSpace ch)) ::
      scanFrom fuel (x.dropWhile (fun ch => !goSpace ch))
  rw [scanFrom, if_pos h1, hd, if_neg (by simpa using hne)]

lemma scanFrom_http_step (fuel : Nat) (x : List Char)
    (hne : x.takeWhile (fun ch => !goSpace ch) ≠ []) :
    scanFrom (fuel + 1) (schemeHttp ++ x) =
      (schemeHttp ++ x.takeWhile (fun ch => !goSpace ch)) ::
        scanFrom fuel (x.dropWhile (fun ch => !goSpace ch)) := by
  have h0 : schemeHttps.isPrefixOf
      ('h' :: 't' :: 't' :: 'p' :: ':' :: '/' :: '/' :: x) = false :=
    https_not_pre_http x
  have h1 : schemeHttp.isPrefixOf
      ('h' :: 't' :: 't' :: 'p' :: ':' :: '/' :: '/' :: x) = true :=
    isPrefixOf_append_self schemeHttp x
  have hd : ('h' :: 't' :: 't' :: 'p' :: ':' :: '/' :: '/' :: x).drop 7 = x := rfl
  show scanFrom (fuel + 1)
      ('h' :: 't' :: 't' :: 'p' :: ':' :: '/' :: '/' :: x) =
    (schemeHttp ++ x.takeWhile (fun ch => !goSpace ch)) ::
      scanFrom fuel (x.dropWhile (fun ch => !goSpace ch))
  rw [scanFrom, if_neg (by simp [h0]), if_pos h1, hd, if_neg (by simpa using hne)]

lemma scanFrom_skip_step (fuel : Nat) (c : Char) (t : List Char)
    (h1 : schemeHttps.isPrefixOf (c :: t) = false)
    (h2 : schemeHttp.isPrefixOf (c :: t) = false) :
    scanFrom (fuel + 1) (c :: t) = scanFrom fuel t := by
  rw [scanFrom, if_neg (by simp [h1]), if_neg (by simp [h2])]

/-- A URL of the shape produced by the scanner, followed by a stretch the
non-whitespace run cannot extend into, rescans to itself. -/
lemma scanFrom_url_step (fuel : Nat) (u x : List Char)
    (hsh : ∃ w, (u = schemeHttps ++ w ∨ u = schemeHttp ++ w) ∧ w ≠ [] ∧
      ∀ c ∈ w, goSpace c = false)
    (hxt : x.takeWhile (fun ch => !goSpace ch) = [])
    (hxd : x.dropWhile (fun ch => !goSpace ch) = x) :
    scanFrom (fuel + 1) (u ++ x) = u :: scanFrom fuel x := by
  obtain ⟨w, hu, hwne, hwns⟩ := hsh
  have hwp : ∀ c ∈ w, (fun ch => !goSpace ch) c = true := by
    intro c hc
    simp [hwns c hc]
  have htw : (w ++ x).takeWhile (fun ch => !goSpace ch) = w := by
    rw [List.takeWhile_append_of_pos (by simpa using hwp), hxt, List.append_nil]
  have hdw : (w ++ x).dropWhile (fun ch => !goSpace ch) = x := by
    rw [List.dropWhile_append_of_pos (by simpa using hwp), hxd]
  rcases hu with rfl | rfl
  · rw [List.append_assoc, scanFrom_https_step fuel (w ++ x) (by rw [htw]; exact hwne),
      htw, hdw]
  · rw [List.append_assoc, scanFrom_http_step fuel (w ++ x) (by rw [htw]; exact hwne),
      htw, hdw]

lemma scanFrom_join : ∀ (us : List (List Char)) (fuel : Nat),
    (∀ u ∈ us, ∃ w, (u = schemeHttps ++ w ∨ u = schemeHttp ++ w) ∧ w ≠ [] ∧
      ∀ c ∈ w, goSpace c = false) →
    (listJoinNL us).length ≤ fuel →
    scanFrom fuel (listJoinNL us) = us := by
  intro us
  induction us with
  | nil =>
    intro fuel _ _
    simp [listJoinNL, scanFrom]
  | cons u rest ih =>
    intro fuel hsh hlen
    have hu := hsh u (List.mem_cons_self _ _)
    have hulen : 7 ≤ u.length := by
      obtain ⟨w, hu2, _, _⟩ := hu
      rcases hu2 with rfl | rfl <;> simp [schemeHttps, schemeHttp]
    cases rest with
    | nil =>
      have hj : listJoinNL [u] = u ++ [] := by simp [listJoinNL]
      rw [hj] at hlen ⊢
      have hlen2 : u.length ≤ fuel := by
        simp [List.length_append] at hlen
        omega
      cases fuel with
      | zero => omega
      | succ g =>
        rw [scanFrom_url_step g u [] hu rfl rfl]
        simp [scanFrom]
    | cons r rs =>
      have hj : listJoinNL (u :: r :: rs) = u ++ '\n' :: listJoinNL (r :: rs) := by
        simp [listJoinNL]
      rw [hj] at hlen ⊢
      have hlen2 : u.length + 1 + (listJoinNL (r :: rs)).length ≤ fuel := by
        simp [List.length_append] at hlen
        omega
      cases fuel with
      | zero => omega
      | succ g =>
        have hxt : ('\n' :: listJoinNL (r :: rs)).takeWhile
            (fun ch => !goSpace ch) = [] :=
          List.takeWhile_cons_of_neg (by decide)
        have hxd : ('\n' :: listJoinNL (r :: rs)).dropWhile
            (fun ch => !goSpace ch) = '\n' :: listJoinNL (r :: rs) :=
          List.dropWhile_cons_of_neg (by decide)
        rw [scanFrom_url_step g u ('\n' :: listJoinNL (r :: rs)) hu hxt hxd]
        cases g with
        | zero => omega
        | succ g2 =>
          rw [scanFrom_skip_step g2 '\n' (listJoinNL (r :: rs))
            (https_not_pre_newline _) (http_not_pre_newline _)]
          rw [ih g2 (fun v hv => hsh v (List.mem_cons_of_mem _ hv)) (by omega)]

lemma extractLoop_id : ∀ (ms seen : List (List Char)),
    (∀ u ∈ ms, cleanMatch u = u ∧ goURLParseOkL u = true) → ms.Nodup →
    extractLoop ms seen = ms.filter (fun u => !(seen.contains u)) := by
  intro ms
  induction ms with
  | nil => intro seen _ _; simp [extractLoop]
  | cons m ms ih =>
    intro seen h hn
    obtain ⟨hc, hp⟩ := h m (List.mem_cons_self _ _)
    have hms : ∀ u ∈ ms, cleanMatch u = u ∧ goURLParseOkL u = true :=
      fun u hu => h u (List.mem_cons_of_mem _ hu)
    have hnodup := List.nodup_cons.mp hn
    by_cases hs : m ∈ seen
    · have l1 : extractLoop (m :: ms) seen = extractLoop ms seen := by
        simp [extractLoop, hc, hp, hs]
      rw [l1, ih seen hms hnodup.2, List.filter_cons, if_neg (by simp [hs])]
    · have l1 : extractLoop (m :: ms) seen = m :: extractLoop ms (m :: seen) := by
        simp [extractLoop, hc, hp, hs]
      rw [l1, ih (m :: seen) hms hnodup.2, List.filter_cons, if_pos (by simp [hs])]
      congr 1
      apply List.filter_congr
      intro a ha
      have hne : a ≠ m := fun he => hnodup.1 (he ▸ ha)
      simp [List.contains_cons, hne]

lemma string_eq_of_toList_eq {s t : String} (h : s.toList = t.toList) : s = t := by
  cases s
  cases t
  exact congrArg String.mk h

lemma string_toList_injective : Function.Injective String.toList :=
  fun _ _ h => string_eq_of_toList_eq h

lemma scheme_getLast_not_stop (pfx : List Char)
    (hp : pfx = schemeHttps ∨ pfx = schemeHttp) :
    ∀ c, pfx.getLast? = some c → stopSet.contains c = false := by
  intro c hc
  rcases hp with rfl | rfl
  · have hg : schemeHttps.getLast? = some '/' := by decide
    rw [hg] at hc
    rw [← Option.some.inj hc]
    decide
  · have hg : schemeHttp.getLast? = some '/' := by decide
    rw [hg] at hc
    rw [← Option.some.inj hc]
    decide

/-- Every output of `extractURLs` keeps its scheme prefix, contains no
regex whitespace, is invariant under another right-trim, and passes the
`url.Parse` check. -/
lemma extractURLs_shape {text : String} {u : String} (hu : u ∈ extractURLs text) :
    ∃ w, (u.toList = schemeHttps ++ w ∨ u.toList = schemeHttp ++ w) ∧
      (∀ c ∈ w, goSpace c = false) ∧ cleanMatch u.toList = u.toList ∧
      goURLParseOkL u.toList = true := by
  obtain ⟨hparse, m, hm, he⟩ := extractURLs_mem hu
  obtain ⟨w0, hm2, _, hw0ns⟩ := findMatchesL_shape hm
  have hfix : cleanMatch u.toList = u.toList := by
    rw [he]
    exact trimRightL_idem _ _
  rcases hm2 with rfl | rfl
  · have hkeep : trimRightL (schemeHttps ++ w0) stopSet =
        schemeHttps ++ trimRightL w0 stopSet :=
      trimRightL_append_keep (scheme_getLast_not_stop _ (Or.inl rfl))
    refine ⟨trimRightL w0 stopSet, Or.inl (by rw [he]; exact hkeep), ?_, hfix, hparse⟩
    intro c hc
    apply hw0ns
    rw [← trimRightL_append_trimmedTail w0 stopSet]
    exact List.mem_append_left _ hc
  · have hkeep : trimRightL (schemeHttp ++ w0) stopSet =
        schemeHttp ++ trimRightL w0 stopSet :=
      trimRightL_append_keep (scheme_getLast_not_stop _ (Or.inr rfl))
    refine ⟨trimRightL w0 stopSet, Or.inr (by rw [he]; exact hkeep), ?_, hfix, hparse⟩
    intro c hc
    apply hw0ns
    rw [← trimRightL_append_trimmedTail w0 stopSet]
    exact List.mem_append_left _ hc

lemma goJoin_toList : ∀ (ss : List String),
    (goJoin "\n" ss).toList = listJoinNL (ss.map String.toList) := by
  intro ss
  induction ss with
  | nil => rfl
  | cons s rest ih =>
    cases rest with
    | nil => rfl
    | cons r rs =>
      show (s ++ "\n" ++ goJoin "\n" (r :: rs)).toList = _
      have h1 : (s ++ "\n" ++ goJoin "\n" (r :: rs)).toList =
          s.toList ++ '\n' :: (goJoin "\n" (r :: rs)).toList := by
        simp [String.toList, String.data_append]
      rw [h1, ih]
      simp [listJoinNL]

lemma extractURLs_toList (text : String) :
    (extractURLs text).map String.toList =
      extractLoop (findMatchesL text.toList) [] := by
  unfold extractURLs
  rw [List.map_map]
  have hid : (String.toList ∘ fun l => String.mk l) = id := by
    funext l
    rfl
  rw [hid, List.map_id]

/-- Re-extracting from the newline-join reproduces the extraction exactly,
provided no extracted URL is a bare scheme. -/
lemma extract_join_eq (text : String)
    (h : ∀ u ∈ extractURLs text, u ≠ "http://" ∧ u ≠ "https://") :
    extractURLs (goJoin "\n" (extractURLs text)) = extractURLs text := by
  have hshape : ∀ v ∈ (extractURLs text).map String.toList,
      ∃ w, (v = schemeHttps ++ w ∨ v = schemeHttp ++ w) ∧ w ≠ [] ∧
        ∀ c ∈ w, goSpace c = false := by
    intro v hv
    rcases List.mem_map.mp hv with ⟨u, hu, rfl⟩
    obtain ⟨w, hw, hns, _, _⟩ := extractURLs_shape hu
    refine ⟨w, hw, fun hwnil => ?_, hns⟩
    rcases hw with h1 | h1
    · apply (h u hu).2
      apply string_eq_of_toList_eq
      rw [h1, hwnil, List.append_nil]
      rfl
    · apply (h u hu).1
      apply string_eq_of_toList_eq
      rw [h1, hwnil, List.append_nil]
      rfl
  have hfix : ∀ v ∈ (extractURLs text).map String.toList,
      cleanMatch v = v ∧ goURLParseOkL v = true := by
    intro v hv
    rcases List.mem_map.mp hv with ⟨u, hu, rfl⟩
    obtain ⟨_, _, _, hcl, hpar⟩ := extractURLs_shape hu
    exact ⟨hcl, hpar⟩
  have hnodup : ((extractURLs text).map String.toList).Nodup :=
    (extractURLs_nodup text).map string_toList_injective
  have e1 : (extractURLs (goJoin "\n" (extractURLs text))).map String.toList =
      extractLoop (findMatchesL (goJoin "\n" (extractURLs text)).toList) [] :=
    extractURLs_toList _
  have e2 : findMatchesL (goJoin "\n" (extractURLs text)).toList =
      (extractURLs text).map String.toList := by
    rw [goJoin_toList]
    unfold findMatchesL
    exact scanFrom_join _ _ hshape (le_refl _)
  have e3 : extractLoop ((extractURLs text).map String.toList) [] =
      (extractURLs text).map String.toList := by
    rw [extractLoop_id _ _ hfix hnodup]
    apply List.filter_eq_self.mpr
    intro a _
    simp
  apply List.map_injective_iff.mpr string_toList_injective
  rw [e1, e2, e3]

/-! The claim theorems. -/

/-- C1: every candidate match found by `extractURLs` is cleaned by a
right-trim over the fixed nine-character stop-set `. , ; ! ? ) ( ] }`: the
match is the cleaned value followed by a run of stop-set characters, and the
cleaned value does not end in a stop-set character, so the whole maximal
trailing run of stop-set characters is removed, not a single one. -/
theorem claim_C1_trim_stop_set (text : String) (m : List Char)
    (_hm : m ∈ findMatchesL text.toList) :
    cleanMatch m ++ m.drop (cleanMatch m).length = m ∧
    (∀ c ∈ m.drop (cleanMatch m).length, c ∈ stopSet) ∧
    (∀ c, (cleanMatch m).getLast? = some c → c ∉ stopSet) := by
  have hdec := trimRightL_append_trimmedTail m stopSet
  have hdrop : m.drop (cleanMatch m).length = trimmedTail m stopSet := by
    have h2 := List.drop_left (trimRightL m stopSet) (trimmedTail m stopSet)
    rw [hdec] at h2
    exact h2
  refine ⟨?_, ?_, ?_⟩
  · rw [hdrop]
    exact hdec
  · intro c hc
    rw [hdrop] at hc
    simpa using mem_trimmedTail hc
  · intro c hcl
    simpa using getLast?_trimRightL hcl

/-- Witness for C1: the match `https://x.y).,` in a concrete text. -/
theorem claim_C1_trim_stop_set_witness :
    ("https://x.y).,".toList ∈ findMatchesL "see https://x.y).,".toList) ∧
    (cleanMatch "https://x.y).,".toList ++
        "https://x.y).,".toList.drop (cleanMatch "https://x.y).,".toList).length =
          "https://x.y).,".toList ∧
      (∀ c ∈ "https://x.y).,".toList.drop
          (cleanMatch "https://x.y).,".toList).length, c ∈ stopSet) ∧
      (∀ c, (cleanMatch "https://x.y).,".toList).getLast? = some c →
        c ∉ stopSet)) :=
  ⟨by decide, claim_C1_trim_stop_set "see https://x.y).," _ (by decide)⟩

/-- C2 is false as stated: a candidate that reduces to the bare scheme and
separator after trailing-punctuation stripping does not fail the validity
check and is not absent — `extractURLs "Invalid: https://."` returns
`["https://"]`, and the `url.Parse` model accepts `https://`. -/
theorem claim_C2_bare_scheme_cex :
    extractURLs "Invalid: https://." = ["https://"] ∧
    goURLParseOk "https://" = true := by
  constructor
  · decide
  · decide

/-- C2 (amended): a bare scheme with nothing after it is never a candidate
match, because the matcher requires at least one non-whitespace character
after the separator, so the example input yields exactly
`["https://example.com"]`; however the validity check accepts `https://`, so
a match that merely reduces to the bare scheme after stripping is kept. -/
theorem claim_C2_bare_scheme_amended (text : String) (m : List Char)
    (hm : m ∈ findMatchesL text.toList) :
    (m ≠ "https://".toList ∧ m ≠ "http://".toList) ∧
    extractURLs "Valid: https://example.com Invalid: https://" =
      ["https://example.com"] ∧
    goURLParseOk "https://" = true := by
  refine ⟨?_, by decide, by decide⟩
  obtain ⟨w, hw, hwne, _⟩ := findMatchesL_shape hm
  rcases hw with rfl | rfl
  · constructor
    · intro he
      apply hwne
      have he2 : schemeHttps ++ w = schemeHttps ++ [] := by
        rw [List.append_nil]
        exact he
      exact List.append_cancel_left he2
    · intro he
      have h4 : some 's' = some ':' :=
        congrArg (fun l => (l.drop 4).head?) he
      exact absurd h4 (by decide)
  · constructor
    · intro he
      have h4 : some ':' = some 's' :=
        congrArg (fun l => (l.drop 4).head?) he
      exact absurd h4 (by decide)
    · intro he
      apply hwne
      have he2 : schemeHttp ++ w = schemeHttp ++ [] := by
        rw [List.append_nil]
        exact he
      exact List.append_cancel_left he2

/-- Witness for the amended C2 at a concrete text and match. -/
theorem claim_C2_bare_scheme_amended_witness :
    ("https://ab".toList ∈ findMatchesL "x https://ab".toList) ∧
    (("https://ab".toList ≠ "https://".toList ∧
        "https://ab".toList ≠ "http://".toList) ∧
      extractURLs "Valid: https://example.com Invalid: https://" =
        ["https://example.com"] ∧
      goURLParseOk "https://" = true) :=
  ⟨by decide, claim_C2_bare_scheme_amended "x https://ab" _ (by decide)⟩

/-- C3: for every input the returned sequence has no duplicates and equals
the sequence of first occurrences of the valid cleaned candidate URLs, in
input order. -/
theorem claim_C3_nodup_first_occurrence (text : String) :
    (extractURLs text).Nodup ∧
    extractURLs text =
      (firstOccur (validCandidates text.toList)).map (fun l => String.mk l) :=
  ⟨extractURLs_nodup text, extractURLs_eq text⟩

/-- C4: every element of the returned sequence passes the `url.Parse`
validity check used in the extraction loop. -/
theorem claim_C4_all_parse (text : String) (u : String)
    (hu : u ∈ extractURLs text) : goURLParseOk u = true :=
  (extractURLs_mem hu).1

/-- Witness for C4 at a concrete text. -/
theorem claim_C4_all_parse_witness :
    ("https://example.com" ∈ extractURLs "go to https://example.com now") ∧
    goURLParseOk "https://example.com" = true :=
  ⟨by decide, claim_C4_all_parse "go to https://example.com now" _ (by decide)⟩

/-- C5 is false as stated: extraction is not idempotent under newline-join.
`extractURLs "https://)"` yields `["https://"]`, but re-extracting from the
joined output yields the empty sequence, so the two sets differ. -/
theorem claim_C5_idempotent_cex :
    ¬ (∀ u : String,
        u ∈ extractURLs (goJoin "\n" (extractURLs "https://)")) ↔
          u ∈ extractURLs "https://)") := by
  intro hall
  have h1 := (hall "https://").mpr (by decide)
  have h2 : extractURLs (goJoin "\n" (extractURLs "https://)")) = [] := by decide
  rw [h2] at h1
  simp at h1

/-- C5 (amended): whenever no extracted URL is a bare scheme (`http://` or
`https://` exactly), re-extracting from the newline-join of the output
reproduces the extraction exactly (hence also as a set). -/
theorem claim_C5_idempotent_amended (text : String)
    (h : ∀ u ∈ extractURLs text, u ≠ "http://" ∧ u ≠ "https://") :
    extractURLs (goJoin "\n" (extractURLs text)) = extractURLs text :=
  extract_join_eq text h

/-- Witness for the amended C5 at a concrete text. -/
theorem claim_C5_idempotent_amended_witness :
    (∀ u ∈ extractURLs "see https://example.com and http://test.org",
      u ≠ "http://" ∧ u ≠ "https://") ∧
    extractURLs
        (goJoin "\n" (extractURLs "see https://example.com and http://test.org")) =
      extractURLs "see https://example.com and http://test.org" :=
  ⟨by decide,
    claim_C5_idempotent_amended "see https://example.com and http://test.org"
      (by decide)⟩

/-- C6: a cancelled selection (empty result, nil error) is benign — `run`
returns nil and the opener is never called. -/
theorem claim_C6_cancel_benign (d : RunDeps) (s : String)
    (hin : d.getInput = .ok s)
    (hsel : d.selectURL (extractURLs s) = .ok "") :
    (run d).1 = none ∧ (run d).2.all (fun c => !isOpenCall c) = true := by
  by_cases he : (extractURLs s).isEmpty
  · simp [run, hin, he]
  · simp [run, hin, he, hsel, isOpenCall]

/-- Witness for C6 with a concrete dependency record. -/
theorem claim_C6_cancel_benign_witness :
    (run ⟨.ok "go https://example.com", fun _ => .ok "",
        fun _ => some "boom"⟩).1 = none ∧
    (run ⟨.ok "go https://example.com", fun _ => .ok "",
        fun _ => some "boom"⟩).2.all (fun c => !isOpenCall c) = true :=
  claim_C6_cancel_benign _ "go https://example.com" rfl rfl

/-- C7: `run` returns an error exactly when input acquisition fails, the
selector fails (cancellation excluded), or the opener fails, and each
category carries its own message. -/
theorem claim_C7_error_contract (d : RunDeps) :
    (∀ e, d.getInput = .error e →
      (run d).1 = some ("error reading input: " ++ e)) ∧
    (∀ s e, d.getInput = .ok s → extractURLs s ≠ [] →
      d.selectURL (extractURLs s) = .error e →
      (run d).1 = some ("error selecting URL: " ++ e)) ∧
    (∀ s u e, d.getInput = .ok s → extractURLs s ≠ [] →
      d.selectURL (extractURLs s) = .ok u → u ≠ "" → d.openURL u = some e →
      (run d).1 = some ("error opening URL: " ++ e)) ∧
    ((run d).1 ≠ none →
      (∃ e, d.getInput = .error e) ∨
      (∃ s e, d.getInput = .ok s ∧ d.selectURL (extractURLs s) = .error e) ∨
      (∃ s u e, d.getInput = .ok s ∧ d.selectURL (extractURLs s) = .ok u ∧
        d.openURL u = some e)) := by
  refine ⟨?_, ?_, ?_, ?_⟩
  · intro e hin
    simp [run, hin]
  · intro s e hin hne hsel
    simp [run, hin, List.isEmpty_iff, hne, hsel]
  · intro s u e hin hne hsel hu hop
    simp [run, hin, List.isEmpty_iff, hne, hsel, hu, hop]
  · intro hrun
    cases hin : d.getInput with
    | error e => exact Or.inl ⟨e, rfl⟩
    | ok s =>
      by_cases he : (extractURLs s).isEmpty
      · exfalso
        apply hrun
        simp [run, hin, he]
      · cases hsel : d.selectURL (extractURLs s) with
        | error e => exact Or.inr (Or.inl ⟨s, e, rfl, hsel⟩)
        | ok u =>
          by_cases hu : u = ""
          · exfalso
            apply hrun
            simp [run, hin, he, hsel, hu]
          · cases hop : d.openURL u with
            | none =>
              exfalso
              apply hrun
              simp [run, hin, he, hsel, hu, hop]
            | some e => exact Or.inr (Or.inr ⟨s, u, e, rfl, hsel, hop⟩)

/-- Witness for C7: a failing input provider yields the input error. -/
theorem claim_C7_error_contract_witness :
    (run ⟨.error "boom", fun _ => .ok "", fun _ => none⟩).1 =
      some ("error reading input: " ++ "boom") :=
  (claim_C7_error_contract _).1 "boom" rfl

/-- C8: candidate matching is case-sensitive on the scheme: every candidate
starts with lowercase `https://` or `http://`, and the uppercase example
yields no output. -/
theorem claim_C8_case_sensitive :
    (∀ (text : String) (m : List Char), m ∈ findMatchesL text.toList →
      (schemeHttps.isPrefixOf m = true ∨ schemeHttp.isPrefixOf m = true)) ∧
    extractURLs "HTTPS://example.com" = [] := by
  refine ⟨?_, by decide⟩
  intro text m hm
  obtain ⟨w, hw, _, _⟩ := findMatchesL_shape hm
  rcases hw with rfl | rfl
  · exact Or.inl (isPrefixOf_append_self _ _)
  · exact Or.inr (isPrefixOf_append_self _ _)

/-- Witness for C8 at a concrete text and match. -/
theorem claim_C8_case_sensitive_witness :
    ("http://test.org".toList ∈ findMatchesL "go http://test.org".toList) ∧
    (schemeHttps.isPrefixOf "http://test.org".toList = true ∨
      schemeHttp.isPrefixOf "http://test.org".toList = true) :=
  ⟨by decide, claim_C8_case_sensitive.1 "go http://test.org" _ (by decide)⟩

/-- C9: every returned URL begins with `http://` or `https://` and contains
no whitespace character of the matcher's `\s` class. -/
theorem claim_C9_prefix_no_whitespace (text : String) (u : String)
    (hu : u ∈ extractURLs text) :
    (schemeHttps.isPrefixOf u.toList = true ∨
      schemeHttp.isPrefixOf u.toList = true) ∧
    u.toList.all (fun c => !goSpace c) = true := by
  obtain ⟨w, hw, hns, _, _⟩ := extractURLs_shape hu
  have hpfxns : ∀ c ∈ schemeHttps, goSpace c = false := by decide
  have hpfxns2 : ∀ c ∈ schemeHttp, goSpace c = false := by decide
  constructor
  · rcases hw with h1 | h1
    · exact Or.inl (by rw [h1]; exact isPrefixOf_append_self _ _)
    · exact Or.inr (by rw [h1]; exact isPrefixOf_append_self _ _)
  · apply List.all_eq_true.mpr
    intro c hc
    rcases hw with h1 | h1 <;> rw [h1] at hc <;>
      rcases List.mem_append.mp hc with h2 | h2
    · simp [hpfxns c h2]
    · simp [hns c h2]
    · simp [hpfxns2 c h2]
    · simp [hns c h2]

/-- Witness for C9 at a concrete text. -/
theorem claim_C9_prefix_no_whitespace_witness :
    ("https://example.com" ∈ extractURLs "see https://example.com.") ∧
    ((schemeHttps.isPrefixOf "https://example.com".toList = true ∨
        schemeHttp.isPrefixOf "https://example.com".toList = true) ∧
      "https://example.com".toList.all (fun c => !goSpace c) = true) :=
  ⟨by decide,
    claim_C9_prefix_no_whitespace "see https://example.com." _ (by decide)⟩

/-- C10: if extraction returns no URLs, `run` returns nil immediately and
neither the selector nor the opener is called. -/
theorem claim_C10_no_urls_no_calls (d : RunDeps) (s : String)
    (hin : d.getInput = .ok s) (hempty : extractURLs s = []) :
    run d = (none, []) := by
  simp [run, hin, hempty]

/-- Witness for C10 with a concrete dependency record. -/
theorem claim_C10_no_urls_no_calls_witness :
    run ⟨.ok "This text has no URLs", fun _ => .error "x", fun _ => some "y"⟩ =
      (none, []) :=
  claim_C10_no_urls_no_calls _ "This text has no URLs" rfl (by decide)

end TmuxUrlView
